import Mathlib

/-!
Verification of the `monads` library: a shallow embedding of the runtime
behaviour of `src/either.ts`, `src/index.ts` (Option), `src/task.ts`
(ReaderTaskEither) and `src/validation.ts` (the schema/codec engine),
together with proofs of the specified properties.

JavaScript runtime values are modelled by the inductive `JsVal`; objects
are association lists of fields, arrays are lists of values, machine
numbers are modelled as integers (no claim depends on float behaviour).
-/

set_option autoImplicit false

mutual
/-- The domain of JavaScript runtime values as far as this library
inspects them: strings, numbers, booleans, `null`, `undefined`, plain
objects (ordered field lists) and arrays. -/
inductive JsVal : Type where
  | str : String → JsVal
  | num : Int → JsVal
  | bool : Bool → JsVal
  | null : JsVal
  | undef : JsVal
  | obj : JsFields → JsVal
  | arr : JsList → JsVal
  deriving DecidableEq

inductive JsFields : Type where
  | nil : JsFields
  | cons : String → JsVal → JsFields → JsFields
  deriving DecidableEq

inductive JsList : Type where
  | nil : JsList
  | cons : JsVal → JsList → JsList
  deriving DecidableEq
end

/-- The JavaScript `typeof` operator on the modelled values
(`typeof null` is `"object"`, arrays are `"object"`). -/
def jsTypeof : JsVal → String
  | .str _ => "string"
  | .num _ => "number"
  | .bool _ => "boolean"
  | .null => "object"
  | .undef => "undefined"
  | .obj _ => "object"
  | .arr _ => "object"

/-- Field lookup in an object's field list; a missing key reads as
`undefined`, as in JavaScript. -/
def jfGet : JsFields → String → JsVal
  | .nil, _ => .undef
  | .cons k v rest, key => if key = k then v else jfGet rest key

/-- Whether an object's field list has an own property named `key`. -/
def jfHas : JsFields → String → Bool
  | .nil, _ => false
  | .cons k _ rest, key => key = k || jfHas rest key

/-- The keys of an object's field list, in insertion order. -/
def jfKeys : JsFields → List String
  | .nil => []
  | .cons k _ rest => k :: jfKeys rest

def jlLength : JsList → Nat
  | .nil => 0
  | .cons _ rest => jlLength rest + 1

/-- Array indexing; out of range reads as `undefined`, as in JavaScript. -/
def jlGet : JsList → Nat → JsVal
  | .nil, _ => .undef
  | .cons x _, 0 => x
  | .cons _ rest, n + 1 => jlGet rest n

/-- Parse a non-empty run of decimal digits into a number (helper for
array index access). -/
def digitsToNat : List Char → Nat → Option Nat
  | [], acc => some acc
  | c :: cs, acc =>
      if c.isDigit then digitsToNat cs (acc * 10 + (c.toNat - 48))
      else none

/-- The candidate array index denoted by a property key (a non-empty
all-digit string), if any. -/
def strIndex? (s : String) : Option Nat :=
  match s.data with
  | [] => none
  | c :: cs => digitsToNat (c :: cs) 0

/-- JavaScript property access `v[key]` as used by the validation engine:
object fields by name, array elements by canonical numeric string plus the
`length` property, everything else `undefined`.  The engine only performs
this access after establishing `typeof v === "object" && v !== null`. -/
def getField (v : JsVal) (key : String) : JsVal :=
  match v with
  | .obj fs => jfGet fs key
  | .arr xs =>
      if key = "length" then .num (jlLength xs)
      else
        match strIndex? key with
        | some i => if Nat.repr i = key then jlGet xs i else .undef
        | none => .undef
  | _ => JsVal.undef

/-- JavaScript own-property test as used by `Struct.encode`. -/
def hasOwn (v : JsVal) (key : String) : Bool :=
  match v with
  | .obj fs => jfHas fs key
  | .arr xs =>
      key = "length" ||
        (match strIndex? key with
         | some i => decide (Nat.repr i = key) && decide (i < jlLength xs)
         | none => false)
  | _ => false

mutual
/-- `JSON.stringify` as interpolated into the engine's error messages
(`undefined` renders as the text `undefined`, the way a template literal
prints it). -/
def jsonStringify : JsVal → String
  | .str s => "\"" ++ s ++ "\""
  | .num n => toString n
  | .bool b => if b then "true" else "false"
  | .null => "null"
  | .undef => "undefined"
  | .obj fs => "\x7b" ++ jsonStringifyFields fs ++ "\x7d"
  | .arr xs => "[" ++ jsonStringifyItems xs ++ "]"

def jsonStringifyFields : JsFields → String
  | .nil => ""
  | .cons k v .nil => "\"" ++ k ++ "\":" ++ jsonStringify v
  | .cons k v (.cons k' v' rest) =>
      "\"" ++ k ++ "\":" ++ jsonStringify v ++ "," ++
        jsonStringifyFields (.cons k' v' rest)

def jsonStringifyItems : JsList → String
  | .nil => ""
  | .cons x .nil => jsonStringify x
  | .cons x (.cons y rest) =>
      jsonStringify x ++ "," ++ jsonStringifyItems (.cons y rest)
end

/-- The `Either` sum type of `src/either.ts` (`_tag`-discriminated union
with `Left`/`Right` payloads). -/
inductive Either (L R : Type) : Type where
  | left : L → Either L R
  | right : R → Either L R
  deriving DecidableEq

/-- `isRight` from `src/either.ts`. -/
def Either.isRight {L R : Type} : Either L R → Bool
  | .right _ => true
  | .left _ => false

/-- `isLeft` from `src/either.ts`. -/
def Either.isLeft {L R : Type} : Either L R → Bool
  | .right _ => false
  | .left _ => true

/-- A `ValidationError` record from `src/validation.ts`: optional `path`
(absent on primitive/literal/transform errors), error `code`, human
message and the offending `input`. -/
structure VErr : Type where
  path : Option (List String)
  code : String
  message : String
  input : JsVal
  deriving DecidableEq

/-- The validation result type `Validation<A> = Either<ValidationError[], A>`. -/
abbrev Validation := Either (List VErr) JsVal

/-- The `required` error pushed by `Struct.decode` for a declared field
whose value is `undefined`/missing. -/
def requiredErr (key : String) : VErr :=
  { path := some [key]
    code := "required"
    message := "Required field " ++ key ++ " is missing"
    input := .undef }

/-- `{...err, path: [key, ...(err.path || [])]}`: the enclosing key or
index is prepended to the path already carried by a nested error. -/
def prependPath (key : String) (e : VErr) : VErr :=
  { path := some (key :: e.path.getD [])
    code := e.code
    message := e.message
    input := e.input }

/-- The single `invalid_type` error produced by `Struct.decode` when the
input is not a non-null object. -/
def structTypeErr (v : JsVal) : VErr :=
  { path := none
    code := "invalid_type"
    message := "Expected object, received " ++
      (if v = .null then "null" else jsTypeof v)
    input := v }

/-- The single `invalid_type` error produced by `List.decode` when the
input is not an array. -/
def listTypeErr (v : JsVal) : VErr :=
  { path := none
    code := "invalid_type"
    message := "Expected array, received " ++ jsTypeof v
    input := v }

/-- The `invalid_type` error produced by a primitive schema's `decode`. -/
def primTypeErr (typeName : String) (v : JsVal) : VErr :=
  { path := none
    code := "invalid_type"
    message := "Expected " ++ typeName ++ ", received " ++ jsTypeof v
    input := v }

/-- The `invalid_literal` error produced by `Literal(lit).decode`. -/
def litErr (lit v : JsVal) : VErr :=
  { path := none
    code := "invalid_literal"
    message := "Expected " ++ jsonStringify lit ++ ", received " ++
      jsonStringify v
    input := v }

/-- The `transform_error` produced when the forward transformer throws;
`input` is the base-decoded (pre-transform) value. -/
def transformErr (msg : String) (r : JsVal) : VErr :=
  { path := none
    code := "transform_error"
    message := "Transformation error: " ++ msg
    input := r }

mutual
/-- The schema grammar of `src/validation.ts`.  `prim` is
`makePrimitive(guard, typeName)` (with the default identity encoder used
by all primitive schemas the source defines), `lit` is `Literal`,
`struct` is `Struct`, `list` is `List`, and `transform` carries the base
schema plus forward/backward converters, which may throw (modelled by
`Except` carrying the thrown error's message). -/
inductive Schema : Type where
  | prim : (JsVal → Bool) → String → Schema
  | lit : JsVal → Schema
  | struct : SFields → Schema
  | list : Schema → Schema
  | transform : Schema → (JsVal → Except String JsVal) →
      (JsVal → Except String JsVal) → Schema

/-- The declared fields of a `Struct` schema, in declaration order. -/
inductive SFields : Type where
  | nil : SFields
  | cons : String → Schema → SFields → SFields
end

/-- The declared fields as a plain association list (specification view,
used to state membership of a declared field). -/
def fieldsList : SFields → List (String × Schema)
  | .nil => []
  | .cons k s rest => (k, s) :: fieldsList rest

/-- The declared field names of a `Struct` schema, in declaration order. -/
def keysOf (fs : SFields) : List String :=
  (fieldsList fs).map Prod.fst

/-- The element loop of `List(itemSchema).decode`: decode every element
independently, pushing decoded values and index-prefixed errors in order
(`i` is the index of the first element of the remaining list). -/
def decodeList (d : JsVal → Validation) : JsList → Nat →
    JsList × List VErr
  | .nil, _ => (.nil, [])
  | .cons x xs, i =>
      let rest := decodeList d xs (i + 1)
      match d x with
      | .right r => (.cons r rest.1, rest.2)
      | .left es => (rest.1, es.map (prependPath (Nat.repr i)) ++ rest.2)

mutual
/-- `decode` of `src/validation.ts`, by cases on the schema constructor:
guard test for primitives, strict equality for literals, the field loop
for structs (after the `typeof data !== "object" || data === null`
check), the element loop for lists (after `Array.isArray`), and base
decode followed by the forward converter for transforms. -/
def decode : Schema → JsVal → Validation
  | .prim guard typeName, v =>
      if guard v then .right v else .left [primTypeErr typeName v]
  | .lit l, v =>
      if v = l then .right l else .left [litErr l v]
  | .struct fs, v =>
      if jsTypeof v = "object" ∧ v ≠ .null then
        let p := decodeFields fs v
        if p.2.length > 0 then .left p.2 else .right (.obj p.1)
      else .left [structTypeErr v]
  | .list s, v =>
      match v with
      | .arr xs =>
          let p := decodeList (fun u => decode s u) xs 0
          if p.2.length > 0 then .left p.2 else .right (.arr p.1)
      | w => .left [listTypeErr w]
  | .transform base fwd _, v =>
      match decode base v with
      | .left es => .left es
      | .right r =>
          match fwd r with
          | .ok b => .right b
          | .error msg => .left [transformErr msg r]

/-- The field loop of `Struct.decode`: for each declared field in order,
a missing (`undefined`) value pushes a `required` error, otherwise the
field is decoded and failures are pushed with the key prepended to their
paths; decoded values are collected into the result object. -/
def decodeFields : SFields → JsVal → JsFields × List VErr
  | .nil, _ => (.nil, [])
  | .cons k s rest, v =>
      let value := getField v k
      let restP := decodeFields rest v
      if value = .undef then (restP.1, requiredErr k :: restP.2)
      else
        match decode s value with
        | .right r => (.cons k r restP.1, restP.2)
        | .left es => (restP.1, es.map (prependPath k) ++ restP.2)
end

/-- The element loop of `List(itemSchema).encode` (`value.map(encode)`);
a throw from an element encoder propagates out of the whole map. -/
def encodeList (e : JsVal → Except String JsVal) : JsList →
    Except String JsList
  | .nil => .ok .nil
  | .cons x xs =>
      match e x with
      | .ok y =>
          match encodeList e xs with
          | .ok ys => .ok (.cons y ys)
          | .error m => .error m
      | .error m => .error m

mutual
/-- `encode` of `src/validation.ts`.  Primitive schemas use the default
identity encoder; `Literal.encode` throws on a value not strictly equal
to the literal; `Struct.encode` copies each declared key that is an own,
non-`undefined` property of the value through its child encoder;
`List.encode` maps the item encoder; `transform.encode` applies the
backward converter then the base encoder, re-throwing any error with an
`Encoding error: ` prefix.  Throwing is modelled by `Except.error`
carrying the thrown error's message. -/
def encode : Schema → JsVal → Except String JsVal
  | .prim _ _, v => .ok v
  | .lit l, v =>
      if v = l then .ok v
      else .error ("Cannot encode: Expected " ++ jsonStringify l ++
        ", received " ++ jsonStringify v)
  | .struct fs, v =>
      match encodeFields fs v with
      | .ok res => .ok (.obj res)
      | .error m => .error m
  | .list s, v =>
      match v with
      | .arr xs =>
          match encodeList (fun u => encode s u) xs with
          | .ok ys => .ok (.arr ys)
          | .error m => .error m
      | _ => .error "TypeError: value.map is not a function"
  | .transform base _ bwd, v =>
      match (match bwd v with
             | .ok a => encode base a
             | .error m => .error m : Except String JsVal) with
      | .ok r => .ok r
      | .error m => .error ("Encoding error: " ++ m)

/-- The key loop of `Struct.encode` over the declared keys, in
declaration order. -/
def encodeFields : SFields → JsVal → Except String JsFields
  | .nil, _ => .ok .nil
  | .cons k s rest, v =>
      if hasOwn v k ∧ getField v k ≠ .undef then
        match encode s (getField v k) with
        | .ok e =>
            match encodeFields rest v with
            | .ok r => .ok (.cons k e r)
            | .error m => .error m
        | .error m => .error m
      else encodeFields rest v
end

/-- The `pathStr ? pathStr + ": " : ""` plus message formatting used by
`Struct.make` and `List.make` for each error. -/
def fmtPathMsg (e : VErr) : String :=
  match e.path with
  | none => e.message
  | some ps =>
      let pathStr := String.intercalate "." ps
      (if pathStr = "" then "" else pathStr ++ ": ") ++ e.message

/-- Whether a schema's outermost constructor is `transform`. -/
def isTransformS : Schema → Bool
  | .transform _ _ _ => true
  | _ => false

/-- `make` of `src/validation.ts`, by constructor.  The primitive and
literal `make` re-run the guard / strict equality test directly and throw
`Validation failed: ` plus the same message their `decode` produces;
`Struct.make` and `List.make` call `decode` and throw the comma-joined
dot-path-plus-message rendering of every error; `transform.make` calls
`decode` but joins only the error messages (no paths). -/
def make : Schema → JsVal → Except String JsVal
  | .prim guard typeName, v =>
      if guard v then .ok v
      else .error ("Validation failed: Expected " ++ typeName ++
        ", received " ++ jsTypeof v)
  | .lit l, v =>
      if v = l then .ok l
      else .error ("Validation failed: Expected " ++ jsonStringify l ++
        ", received " ++ jsonStringify v)
  | .struct fs, v =>
      match decode (.struct fs) v with
      | .right r => .ok r
      | .left es =>
          .error ("Validation failed: " ++
            String.intercalate ", " (es.map fmtPathMsg))
  | .list s, v =>
      match decode (.list s) v with
      | .right r => .ok r
      | .left es =>
          .error ("Validation failed: " ++
            String.intercalate ", " (es.map fmtPathMsg))
  | .transform base fwd bwd, v =>
      match decode (.transform base fwd bwd) v with
      | .right r => .ok r
      | .left es =>
          .error ("Validation failed: " ++
            String.intercalate ", " (es.map (fun e => e.message)))

/-- The primitive schemas defined by the source (all with the default
identity encoder): `String`. -/
def stringSchema : Schema := .prim (fun v => jsTypeof v = "string") "string"

/-- The source's `Number` primitive schema. -/
def numberSchema : Schema := .prim (fun v => jsTypeof v = "number") "number"

/-- The source's `Boolean` primitive schema. -/
def booleanSchema : Schema := .prim (fun v => jsTypeof v = "boolean") "boolean"

namespace Opt

/-- The runtime representation of the source's `Option` values: a `_tag`
discriminant (modelled as `tag`) plus the stored `value` slot (the
`None` singleton stores `undefined` there).  The element type is the
untyped JavaScript value domain, since the null-exclusion in the source
is purely a static (TypeScript) `Exclude` type. -/
structure OptVal : Type where
  tag : String
  value : JsVal
  deriving DecidableEq

/-- The `None` singleton from `src/option.ts`. -/
def None : OptVal := { tag := "None", value := .undef }

/-- The `Some` constructor from `src/option.ts`: it stores its argument
unchanged.  The exclusion of `null`/`undefined` is enforced only by the
TypeScript type of the parameter, which is erased at runtime. -/
def Some (v : JsVal) : OptVal := { tag := "Some", value := v }

/-- `isSome` (`option._tag === "Some"`). -/
def isSome (o : OptVal) : Bool := o.tag = "Some"

/-- `isNone` (`option._tag === "None"`). -/
def isNone (o : OptVal) : Bool := o.tag = "None"

/-- `fromNullable`: `value == null` (loose equality, so both `null` and
`undefined`) yields `None`, otherwise `Some(value)`. -/
def fromNullable (v : JsVal) : OptVal :=
  if v = .null ∨ v = .undef then None else Some v

/-- `bimap`: pass `None` through; otherwise apply `fn` and collapse a
loosely-null (`null`/`undefined`) result to `None`, else wrap in `Some`. -/
def bimap (o : OptVal) (fn : JsVal → JsVal) : OptVal :=
  if isNone o then o
  else
    let b := fn o.value
    if b = .null ∨ b = .undef then None else Some b

/-- The curried `map`, defined as `bimap`. -/
def map (fn : JsVal → JsVal) (o : OptVal) : OptVal := bimap o fn

/-- The curried `flatMap`. -/
def flatMap (fn : JsVal → OptVal) (o : OptVal) : OptVal :=
  if isSome o then fn o.value else o

end Opt

namespace TaskE

/-- The ordered log of observable events (the awaited steps) a wrapped
operation performs while running; used to state the sequencing claims. -/
abbrev Trace := List String

/-- The model of an asynchronous operation `(runtime: E) => Promise<R>`:
given the runtime bundle it either resolves with a value or rejects with
a thrown value of type `Err`, after performing a trace of events. -/
abbrev AsyncOp (Err E R : Type) := E → Trace × Except Err R

/-- The model of `ReaderTaskEither<E, L, R>`: a function from the runtime
bundle to a deferred promise of `Either<L, R>`.  The promise itself can
also reject (an uncaught exception), modelled by the outer `Except`. -/
abbrev ReaderTaskEither (Err E L R : Type) :=
  E → Trace × Except Err (Either L R)

/-- `map` from `src/task.ts`: await the underlying effect, and on a
`Right` apply `f` to the success value.  `f` is an arbitrary JavaScript
function and may throw (`Except.error`); a throw inside the `async`
body rejects the returned promise — it is not caught. -/
def map {Err E L R B : Type} (f : R → Except Err B)
    (m : ReaderTaskEither Err E L R) : ReaderTaskEither Err E L B :=
  fun runtime =>
    let p := m runtime
    match p.2 with
    | .error e => (p.1, .error e)
    | .ok (.left l) => (p.1, .ok (.left l))
    | .ok (.right r) =>
        match f r with
        | .ok b => (p.1, .ok (.right b))
        | .error e => (p.1, .error e)

/-- `flatMap` from `src/task.ts`: await the first effect; on `Right`,
run the effect produced by `f` on the same runtime (its events strictly
follow the first's); on `Left` return the failure unchanged without
touching `f`. -/
def flatMap {Err E L R B : Type} (f : R → ReaderTaskEither Err E L B)
    (m : ReaderTaskEither Err E L R) : ReaderTaskEither Err E L B :=
  fun runtime =>
    let p := m runtime
    match p.2 with
    | .error e => (p.1, .error e)
    | .ok (.left l) => (p.1, .ok (.left l))
    | .ok (.right r) =>
        let q := f r runtime
        (p.1 ++ q.1, q.2)

/-- `fork` from `src/task.ts`: supply the runtime bundle and run the
deferred computation. -/
def fork {Err E L R : Type} (runtime : E)
    (m : ReaderTaskEither Err E L R) : Trace × Except Err (Either L R) :=
  m runtime

/-- `from` from `src/task.ts` (named `fromOp` here because `from` is a
Lean keyword): run the wrapped operation inside `try`/`catch`, turning a
normal completion into `Right` and any thrown/rejected value into
`Left`.  The thrown value is cast to the failure type in the source
(`e as L`), so the failure channel is the thrown-value type. -/
def fromOp {Err E R : Type} (f : AsyncOp Err E R) :
    ReaderTaskEither Err E Err R :=
  fun runtime =>
    let p := f runtime
    match p.2 with
    | .ok r => (p.1, .ok (.right r))
    | .error e => (p.1, .ok (.left e))

end TaskE

/-- Unfolding lemma for `decode` on a primitive schema. -/
theorem decode_prim_eq (guard : JsVal → Bool) (typeName : String)
    (v : JsVal) : decode (.prim guard typeName) v =
    if guard v then .right v else .left [primTypeErr typeName v] := rfl

/-- Unfolding lemma for `decode` on a literal schema. -/
theorem decode_lit_eq (l v : JsVal) : decode (.lit l) v =
    if v = l then .right l else .left [litErr l v] := rfl

/-- Unfolding lemma for `decode` on a struct schema. -/
theorem decode_struct_eq (fs : SFields) (v : JsVal) :
    decode (.struct fs) v =
    if jsTypeof v = "object" ∧ v ≠ .null then
      if (decodeFields fs v).2.length > 0 then .left (decodeFields fs v).2
      else .right (.obj (decodeFields fs v).1)
    else .left [structTypeErr v] := rfl

/-- Unfolding lemma for `decode` on a list schema applied to an array. -/
theorem decode_list_arr_eq (s : Schema) (xs : JsList) :
    decode (.list s) (.arr xs) =
    (if (decodeList (fun u => decode s u) xs 0).2.length > 0 then
      .left (decodeList (fun u => decode s u) xs 0).2
    else .right (.arr (decodeList (fun u => decode s u) xs 0).1)) := rfl

/-- Unfolding lemma for `decode` on a transform schema. -/
theorem decode_transform_eq (base : Schema)
    (fwd bwd : JsVal → Except String JsVal) (v : JsVal) :
    decode (.transform base fwd bwd) v =
    (match decode base v with
     | .left es => .left es
     | .right r =>
         match fwd r with
         | .ok b => .right b
         | .error msg => .left [transformErr msg r]) := rfl

/-- Specification view of what one declared field contributes to a
struct's error list: a single `required` error when the value is
missing, the key-prefixed nested errors when its decode fails, nothing
when it succeeds. -/
def fieldErrs (v : JsVal) (p : String × Schema) : List VErr :=
  if getField v p.1 = .undef then [requiredErr p.1]
  else
    match decode p.2 (getField v p.1) with
    | .right _ => []
    | .left es => es.map (prependPath p.1)

/-- Specification view of the full accumulated error list of a struct:
the concatenation, in declaration order, of every declared field's
contribution. -/
def structErrors (fs : SFields) (v : JsVal) : List VErr :=
  (fieldsList fs).flatMap (fieldErrs v)

/-- The error list accumulated by the struct field loop is exactly the
concatenation of the per-field contributions. -/
theorem decodeFields_snd : ∀ (fs : SFields) (v : JsVal),
    (decodeFields fs v).2 = structErrors fs v
  | .nil, _ => rfl
  | .cons k s rest, v => by
      have ih := decodeFields_snd rest v
      simp only [decodeFields, structErrors, fieldsList, List.flatMap_cons,
        fieldErrs]
      by_cases h : getField v k = .undef
      · simp [h, ih, structErrors]
      · simp only [h, if_neg, if_false]
        cases hd : decode s (getField v k) with
        | right r => simp [hd, ih, structErrors, h]
        | left es => simp [hd, ih, structErrors, h]

/-- Every error contributed by the declared field `k` carries a path
beginning with `k`. -/
theorem fieldErrs_path (v : JsVal) (k : String) (s : Schema) (e : VErr)
    (he : e ∈ fieldErrs v (k, s)) : ∃ ps, e.path = some (k :: ps) := by
  unfold fieldErrs at he
  by_cases h : getField v k = .undef
  · simp [h] at he
    exact ⟨[], by simp [he, requiredErr]⟩
  · simp only [h, if_neg, if_false] at he
    cases hd : decode s (getField v k) with
    | right r => simp [hd] at he
    | left es =>
        simp only [hd, List.mem_map] at he
        obtain ⟨e', _, rfl⟩ := he
        exact ⟨e'.path.getD [], rfl⟩

/-- Every accumulated struct error carries a non-empty path whose head is
one of the declared field names. -/
theorem structErrors_path (fs : SFields) (v : JsVal) (e : VErr)
    (he : e ∈ structErrors fs v) :
    ∃ k ps, e.path = some (k :: ps) ∧ k ∈ keysOf fs := by
  unfold structErrors at he
  rw [List.mem_flatMap] at he
  obtain ⟨⟨k, s⟩, hmem, he⟩ := he
  obtain ⟨ps, hp⟩ := fieldErrs_path v k s e he
  exact ⟨k, ps, hp, List.mem_map_of_mem Prod.fst hmem⟩

/-- A field distinct from `k` never contributes the `required` error of
`k`. -/
theorem fieldErrs_count_ne (v : JsVal) (k k' : String) (s : Schema)
    (hne : k' ≠ k) : (fieldErrs v (k', s)).count (requiredErr k) = 0 := by
  rw [List.count_eq_zero]
  intro hmem
  obtain ⟨ps, hp⟩ := fieldErrs_path v k' s (requiredErr k) hmem
  simp [requiredErr] at hp
  exact hne hp.1.symm

/-- Every error accumulated by the list element loop carries a non-empty
path (the element index was prepended). -/
theorem decodeList_path (d : JsVal → Validation) :
    ∀ (xs : JsList) (i : Nat) (e : VErr),
    e ∈ (decodeList d xs i).2 → ∃ k ps, e.path = some (k :: ps)
  | .nil, _, _, he => by simp [decodeList] at he
  | .cons x xs, i, e, he => by
      unfold decodeList at he
      cases hd : d x with
      | right r =>
          simp only [hd] at he
          exact decodeList_path d xs (i + 1) e he
      | left es =>
          simp only [hd, List.mem_append, List.mem_map] at he
          rcases he with ⟨e', _, rfl⟩ | he
          · exact ⟨Nat.repr i, e'.path.getD [], rfl⟩
          · exact decodeList_path d xs (i + 1) e he

/-- Every error `decode` produces whose code is `required` carries a
non-empty path: `required` errors originate only in the struct field
loop, which always sets a one-element path, and every enclosing layer
only prepends to paths. -/
theorem decode_required_path : ∀ (s : Schema) (w : JsVal) (es : List VErr)
    (e : VErr), decode s w = .left es → e ∈ es → e.code = "required" →
    ∃ k ps, e.path = some (k :: ps)
  | .prim guard typeName, w, es, e, hd, he, hc => by
      rw [decode_prim_eq] at hd
      by_cases hg : guard w
      · rw [if_pos hg] at hd; exact absurd hd (by simp)
      · rw [if_neg hg] at hd
        injection hd with hd
        subst hd
        simp at he
        simp [he, primTypeErr] at hc
  | .lit l, w, es, e, hd, he, hc => by
      rw [decode_lit_eq] at hd
      by_cases hg : w = l
      · rw [if_pos hg] at hd; exact absurd hd (by simp)
      · rw [if_neg hg] at hd
        injection hd with hd
        subst hd
        simp at he
        simp [he, litErr] at hc
  | .struct fs, w, es, e, hd, he, hc => by
      rw [decode_struct_eq] at hd
      by_cases ho : jsTypeof w = "object" ∧ w ≠ .null
      · rw [if_pos ho] at hd
        by_cases hl : (decodeFields fs w).2.length > 0
        · rw [if_pos hl] at hd
          injection hd with hd
          subst hd
          rw [decodeFields_snd] at he
          obtain ⟨k, ps, hp, _⟩ := structErrors_path fs w e he
          exact ⟨k, ps, hp⟩
        · rw [if_neg hl] at hd; exact absurd hd (by simp)
      · rw [if_neg ho] at hd
        injection hd with hd
        subst hd
        simp at he
        simp [he, structTypeErr] at hc
  | .list s, w, es, e, hd, he, hc => by
      cases w with
      | arr xs =>
          rw [decode_list_arr_eq] at hd
          by_cases hl : (decodeList (fun u => decode s u) xs 0).2.length > 0
          · rw [if_pos hl] at hd
            injection hd with hd
            subst hd
            exact decodeList_path _ xs 0 e he
          · rw [if_neg hl] at hd; exact absurd hd (by simp)
      | str a =>
          injection hd with hd; subst hd
          simp at he; simp [he, listTypeErr] at hc
      | num a =>
          injection hd with hd; subst hd
          simp at he; simp [he, listTypeErr] at hc
      | bool a =>
          injection hd with hd; subst hd
          simp at he; simp [he, listTypeErr] at hc
      | null =>
          injection hd with hd; subst hd
          simp at he; simp [he, listTypeErr] at hc
      | undef =>
          injection hd with hd; subst hd
          simp at he; simp [he, listTypeErr] at hc
      | obj fs =>
          injection hd with hd; subst hd
          simp at he; simp [he, listTypeErr] at hc
  | .transform base fwd bwd, w, es, e, hd, he, hc => by
      rw [decode_transform_eq] at hd
      cases hb : decode base w with
      | left esb =>
          rw [hb] at hd
          injection hd with hd
          subst hd
          exact decode_required_path base w esb e hb he hc
      | right r =>
          rw [hb] at hd
          dsimp only at hd
          cases hf : fwd r with
          | ok b => rw [hf] at hd; exact absurd hd (by simp)
          | error msg =>
              rw [hf] at hd
              injection hd with hd
              subst hd
              simp at he
              simp [he, transformErr] at hc

/-- A field whose value is present contributes no `required` error at
all. -/
theorem fieldErrs_count_present (v : JsVal) (k : String) (s : Schema)
    (hp : getField v k ≠ .undef) :
    (fieldErrs v (k, s)).count (requiredErr k) = 0 := by
  rw [List.count_eq_zero]
  intro hmem
  unfold fieldErrs at hmem
  simp only [hp, if_neg, if_false] at hmem
  cases hd : decode s (getField v k) with
  | right r => simp [hd] at hmem
  | left es =>
      simp only [hd, List.mem_map] at hmem
      obtain ⟨e', hmem', he'⟩ := hmem
      have hcode := congrArg VErr.code he'
      have hpath := congrArg VErr.path he'
      simp [prependPath, requiredErr] at hcode hpath
      obtain ⟨k2, ps, hp2⟩ :=
        decode_required_path s (getField v k) es e' hd hmem' hcode
      rw [hp2] at hpath
      simp at hpath

/-- A key not declared in a field list never receives a `required` error
from that list. -/
theorem flat_count_zero (v : JsVal) (k : String) :
    ∀ (l : List (String × Schema)), k ∉ l.map Prod.fst →
    (l.flatMap (fieldErrs v)).count (requiredErr k) = 0 := by
  intro l hk
  rw [List.count_eq_zero]
  intro hmem
  rw [List.mem_flatMap] at hmem
  obtain ⟨⟨k', s'⟩, hl, hf⟩ := hmem
  obtain ⟨ps, hp⟩ := fieldErrs_path v k' s' _ hf
  simp [requiredErr] at hp
  exact hk (hp.1 ▸ List.mem_map_of_mem Prod.fst hl)

/-- Under distinct declared keys, a declared field whose value is missing
receives exactly one `required` error in the accumulated list. -/
theorem flat_count_one (v : JsVal) (k : String) (s : Schema) :
    ∀ (l : List (String × Schema)), (l.map Prod.fst).Nodup →
    (k, s) ∈ l → getField v k = .undef →
    (l.flatMap (fieldErrs v)).count (requiredErr k) = 1 := by
  intro l
  induction l with
  | nil => intro _ h; exact absurd h (List.not_mem_nil _)
  | cons hd t ih =>
      intro hnd hmem hmiss
      obtain ⟨k', s'⟩ := hd
      rw [List.map_cons, List.nodup_cons] at hnd
      rw [List.flatMap_cons, List.count_append]
      rcases List.mem_cons.mp hmem with heq | htail
      · obtain ⟨rfl, rfl⟩ := Prod.mk.injEq .. ▸ heq
        rw [flat_count_zero v k t hnd.1]
        simp [fieldErrs, hmiss]
      · have hk : k ∈ t.map Prod.fst := List.mem_map_of_mem Prod.fst htail
        have hne : k' ≠ k := fun h => hnd.1 (h ▸ hk)
        rw [fieldErrs_count_ne v k k' s' hne, ih hnd.2 htail hmiss]

/-- C1. For every `Struct` schema and non-null object input, `decode`
validates all declared fields: the accumulated error list is the
concatenation of the per-field contributions (`structErrors`), decoding
succeeds exactly when it is empty and otherwise fails with the whole
list; each declared field missing from the input contributes the
`required` error with one-element path `[fieldName]`, and (for distinct
declared keys) exactly one such error. -/
theorem spec_c1 (fs : SFields) (v : JsVal) (h1 : jsTypeof v = "object")
    (h2 : v ≠ .null) :
    ((structErrors fs v = [] ∧
        decode (.struct fs) v = .right (.obj (decodeFields fs v).1)) ∨
      (structErrors fs v ≠ [] ∧
        decode (.struct fs) v = .left (structErrors fs v))) ∧
    (∀ k s, (k, s) ∈ fieldsList fs → getField v k = .undef →
      requiredErr k ∈ structErrors fs v) ∧
    ((keysOf fs).Nodup → ∀ k s, (k, s) ∈ fieldsList fs →
      getField v k = .undef →
      (structErrors fs v).count (requiredErr k) = 1) := by
  refine ⟨?_, ?_, ?_⟩
  · rw [decode_struct_eq, if_pos ⟨h1, h2⟩]
    by_cases hemp : structErrors fs v = []
    · left
      refine ⟨hemp, ?_⟩
      rw [if_neg]
      simp [decodeFields_snd, hemp]
    · right
      refine ⟨hemp, ?_⟩
      rw [if_pos, decodeFields_snd]
      rw [decodeFields_snd]
      exact List.length_pos.mpr hemp
  · intro k s hmem hmiss
    unfold structErrors
    rw [List.mem_flatMap]
    exact ⟨(k, s), hmem, by simp [fieldErrs, hmiss]⟩
  · intro hnd k s hmem hmiss
    exact flat_count_one v k s (fieldsList fs) hnd hmem hmiss

/-- Witness for C1 at the spec's own example: a struct with two required
fields, decoded against the empty object, yields exactly the two
`required` errors. -/
theorem spec_c1_witness :
    (jsTypeof (JsVal.obj .nil) = "object" ∧ JsVal.obj .nil ≠ .null) ∧
    decode (.struct (.cons "a" numberSchema (.cons "b" stringSchema .nil)))
      (.obj .nil) = .left [requiredErr "a", requiredErr "b"] ∧
    (structErrors (.cons "a" numberSchema (.cons "b" stringSchema .nil))
      (.obj .nil)).count (requiredErr "a") = 1 := by
  have h := spec_c1
    (.cons "a" numberSchema (.cons "b" stringSchema .nil))
    (.obj .nil) (by decide) (by decide)
  refine ⟨⟨by decide, by decide⟩, ?_, ?_⟩
  · rcases h.1 with ⟨hemp, _⟩ | ⟨_, hdec⟩
    · exact absurd hemp (by decide)
    · rw [show structErrors
          (.cons "a" numberSchema (.cons "b" stringSchema .nil))
          (.obj .nil) = [requiredErr "a", requiredErr "b"] from by decide]
        at hdec
      exact hdec
  · exact h.2.2 (by decide) "a" numberSchema
      (by simp [fieldsList]) (by decide)

/-- Unfolding lemma for the list element loop on a cons cell. -/
theorem decodeList_cons_eq (d : JsVal → Validation) (x : JsVal)
    (xs : JsList) (i : Nat) : decodeList d (.cons x xs) i =
    (match d x with
     | .right r =>
         (.cons r (decodeList d xs (i + 1)).1, (decodeList d xs (i + 1)).2)
     | .left es =>
         ((decodeList d xs (i + 1)).1,
           es.map (prependPath (Nat.repr i)) ++
             (decodeList d xs (i + 1)).2)) := rfl

/-- `decode` never fails with an empty error list. -/
theorem decode_left_ne_nil : ∀ (s : Schema) (v : JsVal) (es : List VErr),
    decode s v = .left es → es ≠ []
  | .prim guard typeName, v, es, hd => by
      rw [decode_prim_eq] at hd
      by_cases hg : guard v
      · rw [if_pos hg] at hd; exact absurd hd (by simp)
      · rw [if_neg hg] at hd
        injection hd with hd
        subst hd
        simp
  | .lit l, v, es, hd => by
      rw [decode_lit_eq] at hd
      by_cases hg : v = l
      · rw [if_pos hg] at hd; exact absurd hd (by simp)
      · rw [if_neg hg] at hd
        injection hd with hd
        subst hd
        simp
  | .struct fs, v, es, hd => by
      rw [decode_struct_eq] at hd
      by_cases ho : jsTypeof v = "object" ∧ v ≠ .null
      · rw [if_pos ho] at hd
        by_cases hl : (decodeFields fs v).2.length > 0
        · rw [if_pos hl] at hd
          injection hd with hd
          subst hd
          exact List.length_pos.mp hl
        · rw [if_neg hl] at hd; exact absurd hd (by simp)
      · rw [if_neg ho] at hd
        injection hd with hd
        subst hd
        simp
  | .list s, v, es, hd => by
      cases v with
      | arr xs =>
          rw [decode_list_arr_eq] at hd
          by_cases hl :
            (decodeList (fun u => decode s u) xs 0).2.length > 0
          · rw [if_pos hl] at hd
            injection hd with hd
            subst hd
            exact List.length_pos.mp hl
          · rw [if_neg hl] at hd; exact absurd hd (by simp)
      | str a => injection hd with hd; subst hd; simp
      | num a => injection hd with hd; subst hd; simp
      | bool a => injection hd with hd; subst hd; simp
      | null => injection hd with hd; subst hd; simp
      | undef => injection hd with hd; subst hd; simp
      | obj fs => injection hd with hd; subst hd; simp
  | .transform base fwd bwd, v, es, hd => by
      rw [decode_transform_eq] at hd
      cases hb : decode base v with
      | left esb =>
          rw [hb] at hd
          injection hd with hd
          subst hd
          exact decode_left_ne_nil base v esb hb
      | right r =>
          rw [hb] at hd
          dsimp only at hd
          cases hf : fwd r with
          | ok b => rw [hf] at hd; exact absurd hd (by simp)
          | error msg =>
              rw [hf] at hd
              injection hd with hd
              subst hd
              simp

/-- An element whose decode fails contributes its errors, with the
element's index (rendered in decimal) prepended to each path, to the
error list accumulated by the list element loop. -/
theorem decodeList_mem (s : Schema) : ∀ (xs : JsList) (i j : Nat)
    (es : List VErr) (e : VErr), j < jlLength xs →
    decode s (jlGet xs j) = .left es → e ∈ es →
    prependPath (Nat.repr (i + j)) e ∈
      (decodeList (fun u => decode s u) xs i).2
  | .nil, _, j, _, _, hj, _, _ => absurd hj (by simp [jlLength])
  | .cons x xs, i, 0, es, e, _, hd, he => by
      rw [decodeList_cons_eq]
      simp only [jlGet] at hd
      rw [hd]
      simp only [Nat.add_zero]
      exact List.mem_append_left _ (List.mem_map_of_mem _ he)
  | .cons x xs, i, j + 1, es, e, hj, hd, he => by
      rw [decodeList_cons_eq]
      simp only [jlGet] at hd
      have hj' : j < jlLength xs := by
        simp only [jlLength] at hj
        omega
      have ih := decodeList_mem s xs (i + 1) j es e hj' hd he
      have harith : i + 1 + j = i + (j + 1) := by omega
      rw [harith] at ih
      cases hx : decode s x with
      | right r => exact ih
      | left es' => exact List.mem_append_right _ ih

/-- C2. When a declared struct field's child decode fails, every nested
error appears in the struct's failure with the field name prepended to
the path it already carried; when a list element's decode fails, every
nested error appears in the list's failure with the element index
(rendered as a decimal string) prepended.  The path is extended at the
front, never at the back. -/
theorem spec_c2 :
    (∀ (fs : SFields) (v : JsVal) (k : String) (s : Schema)
      (es : List VErr), (k, s) ∈ fieldsList fs → jsTypeof v = "object" →
      v ≠ .null → getField v k ≠ .undef →
      decode s (getField v k) = .left es →
      ∃ E, decode (.struct fs) v = .left E ∧ ∀ e ∈ es,
        ({ path := some (k :: e.path.getD []), code := e.code,
           message := e.message, input := e.input } : VErr) ∈ E) ∧
    (∀ (s : Schema) (xs : JsList) (j : Nat) (es : List VErr),
      j < jlLength xs → decode s (jlGet xs j) = .left es →
      ∃ E, decode (.list s) (.arr xs) = .left E ∧ ∀ e ∈ es,
        ({ path := some (Nat.repr j :: e.path.getD []), code := e.code,
           message := e.message, input := e.input } : VErr) ∈ E) := by
  constructor
  · intro fs v k s es hmem h1 h2 hpres hd
    obtain ⟨e0, he0⟩ := List.exists_mem_of_ne_nil _
      (decode_left_ne_nil s (getField v k) es hd)
    have hsub : ∀ e ∈ es, prependPath k e ∈ structErrors fs v := by
      intro e he
      unfold structErrors
      rw [List.mem_flatMap]
      refine ⟨(k, s), hmem, ?_⟩
      unfold fieldErrs
      rw [if_neg hpres, hd]
      exact List.mem_map_of_mem _ he
    have hne : structErrors fs v ≠ [] :=
      List.ne_nil_of_mem (hsub e0 he0)
    refine ⟨structErrors fs v, ?_, hsub⟩
    rw [decode_struct_eq, if_pos ⟨h1, h2⟩, if_pos, decodeFields_snd]
    rw [decodeFields_snd]
    exact List.length_pos.mpr hne
  · intro s xs j es hj hd
    obtain ⟨e0, he0⟩ := List.exists_mem_of_ne_nil _
      (decode_left_ne_nil s (jlGet xs j) es hd)
    have hsub : ∀ e ∈ es, prependPath (Nat.repr j) e ∈
        (decodeList (fun u => decode s u) xs 0).2 := by
      intro e he
      have := decodeList_mem s xs 0 j es e hj hd he
      rwa [Nat.zero_add] at this
    have hne : (decodeList (fun u => decode s u) xs 0).2 ≠ [] :=
      List.ne_nil_of_mem (hsub e0 he0)
    refine ⟨_, ?_, hsub⟩
    rw [decode_list_arr_eq, if_pos]
    exact List.length_pos.mpr hne

/-- Witness for C2 at the spec's two examples:
`Struct({a: Struct({b: Number})}).decode({a: {b: "x"}})` carries the
error at path `["a","b"]`, and `List(Number).decode([1,"x",3])` carries
the error at path `["1"]`. -/
theorem spec_c2_witness :
    (decode (.struct (.cons "b" numberSchema .nil))
        (getField (.obj (.cons "a"
          (.obj (.cons "b" (.str "x") .nil)) .nil)) "a") =
      .left [{ path := some ["b"], code := "invalid_type",
               message := "Expected number, received string",
               input := .str "x" }] ∧
      (∃ E, decode (.struct (.cons "a"
          (.struct (.cons "b" numberSchema .nil)) .nil))
          (.obj (.cons "a" (.obj (.cons "b" (.str "x") .nil)) .nil)) =
          .left E ∧
        ∀ e ∈ [({ path := some ["b"], code := "invalid_type",
                  message := "Expected number, received string",
                  input := .str "x" } : VErr)],
          ({ path := some ("a" :: e.path.getD []), code := e.code,
             message := e.message, input := e.input } : VErr) ∈ E)) ∧
    (decode numberSchema
        (jlGet (.cons (.num 1) (.cons (.str "x") (.cons (.num 3) .nil)))
          1) =
      .left [{ path := none, code := "invalid_type",
               message := "Expected number, received string",
               input := .str "x" }] ∧
      ∃ E, decode (.list numberSchema)
          (.arr (.cons (.num 1)
            (.cons (.str "x") (.cons (.num 3) .nil)))) = .left E ∧
        ∀ e ∈ [({ path := none, code := "invalid_type",
                  message := "Expected number, received string",
                  input := .str "x" } : VErr)],
          ({ path := some (Nat.repr 1 :: e.path.getD []), code := e.code,
             message := e.message, input := e.input } : VErr) ∈ E) := by
  refine ⟨⟨by decide, ?_⟩, by decide, ?_⟩
  · exact spec_c2.1 (.cons "a" (.struct (.cons "b" numberSchema .nil)) .nil)
      (.obj (.cons "a" (.obj (.cons "b" (.str "x") .nil)) .nil))
      "a" (.struct (.cons "b" numberSchema .nil)) _
      (by simp [fieldsList]) (by decide) (by decide) (by decide) (by decide)
  · exact spec_c2.2 numberSchema
      (.cons (.num 1) (.cons (.str "x") (.cons (.num 3) .nil))) 1 _
      (by decide) (by decide)

/-- Unfolding lemma for the struct field loop on a cons cell. -/
theorem decodeFields_cons_eq (k : String) (s : Schema) (rest : SFields)
    (v : JsVal) : decodeFields (.cons k s rest) v =
    (if getField v k = .undef then
      ((decodeFields rest v).1, requiredErr k :: (decodeFields rest v).2)
    else
      match decode s (getField v k) with
      | .right r =>
          (.cons k r (decodeFields rest v).1, (decodeFields rest v).2)
      | .left es =>
          ((decodeFields rest v).1,
            es.map (prependPath k) ++ (decodeFields rest v).2)) := rfl

/-- The struct field loop reads the input only at the declared keys: two
inputs that agree on every declared key decode identically. -/
theorem decodeFields_congr : ∀ (fs : SFields) (v w : JsVal),
    (∀ k, k ∈ keysOf fs → getField v k = getField w k) →
    decodeFields fs v = decodeFields fs w
  | .nil, _, _, _ => rfl
  | .cons k s rest, v, w, hagree => by
      have hk : getField v k = getField w k :=
        hagree k (by simp [keysOf, fieldsList])
      have ih := decodeFields_congr rest v w
        (fun k' hk' => hagree k'
          (by simp only [keysOf, fieldsList, List.map_cons,
                List.mem_cons] at hk' ⊢
              exact Or.inr hk'))
      rw [decodeFields_cons_eq, decodeFields_cons_eq, hk, ih]

/-- On success the decoded object carries exactly the declared keys, in
declaration order. -/
theorem decodeFields_keys : ∀ (fs : SFields) (v : JsVal),
    (decodeFields fs v).2 = [] →
    jfKeys (decodeFields fs v).1 = keysOf fs
  | .nil, _, _ => rfl
  | .cons k s rest, v, hsucc => by
      rw [decodeFields_cons_eq] at hsucc ⊢
      by_cases hm : getField v k = .undef
      · rw [if_pos hm] at hsucc
        exact absurd hsucc (by simp)
      · rw [if_neg hm] at hsucc ⊢
        cases hd : decode s (getField v k) with
        | right r =>
            rw [hd] at hsucc
            dsimp only at hsucc ⊢
            simp only [jfKeys, keysOf, fieldsList, List.map_cons]
            have := decodeFields_keys rest v hsucc
            rw [this]
            rfl
        | left es =>
            rw [hd] at hsucc
            dsimp only at hsucc
            simp only [List.append_eq_nil] at hsucc
            exact absurd (List.map_eq_nil_iff.mp hsucc.1)
              (decode_left_ne_nil s (getField v k) es hd)

/-- C5. Keys present in the input but not declared in the schema are
silently ignored: decoding depends only on the values at the declared
keys (so an undeclared key can produce no error and no output), and the
decoded object carries exactly the declared keys. -/
theorem spec_c5 (fs : SFields) (v w : JsVal)
    (h1 : jsTypeof v = "object") (h2 : v ≠ .null)
    (h3 : jsTypeof w = "object") (h4 : w ≠ .null)
    (hagree : ∀ k, k ∈ keysOf fs → getField v k = getField w k) :
    decode (.struct fs) v = decode (.struct fs) w ∧
    (∀ res, decode (.struct fs) v = .right (.obj res) →
      jfKeys res = keysOf fs) := by
  constructor
  · rw [decode_struct_eq, decode_struct_eq,
      decodeFields_congr fs v w hagree,
      if_pos (show jsTypeof v = "object" ∧ v ≠ .null from ⟨h1, h2⟩),
      if_pos (show jsTypeof w = "object" ∧ w ≠ .null from ⟨h3, h4⟩)]
  · intro res hdec
    rw [decode_struct_eq,
      if_pos (show jsTypeof v = "object" ∧ v ≠ .null from ⟨h1, h2⟩)]
      at hdec
    by_cases hl : (decodeFields fs v).2.length > 0
    · rw [if_pos hl] at hdec
      exact absurd hdec (by simp)
    · rw [if_neg hl] at hdec
      injection hdec with hdec
      injection hdec with hdec
      rw [← hdec]
      exact decodeFields_keys fs v (by simpa using hl)

/-- Witness for C5 at the spec's example: `Struct({a: String})` decodes
`{a:"x", z:1}` and `{a:"x"}` identically, succeeding with an object that
carries only the declared key `a`. -/
theorem spec_c5_witness :
    (∀ k, k ∈ keysOf (.cons "a" stringSchema .nil) →
      getField (.obj (.cons "a" (.str "x") (.cons "z" (.num 1) .nil))) k =
        getField (.obj (.cons "a" (.str "x") .nil)) k) ∧
    decode (.struct (.cons "a" stringSchema .nil))
        (.obj (.cons "a" (.str "x") (.cons "z" (.num 1) .nil))) =
      decode (.struct (.cons "a" stringSchema .nil))
        (.obj (.cons "a" (.str "x") .nil)) ∧
    decode (.struct (.cons "a" stringSchema .nil))
        (.obj (.cons "a" (.str "x") (.cons "z" (.num 1) .nil))) =
      .right (.obj (.cons "a" (.str "x") .nil)) ∧
    jfKeys (.cons "a" (.str "x") .nil) = ["a"] := by
  refine ⟨by decide, ?_, by decide, by decide⟩
  exact (spec_c5 (.cons "a" stringSchema .nil)
    (.obj (.cons "a" (.str "x") (.cons "z" (.num 1) .nil)))
    (.obj (.cons "a" (.str "x") .nil))
    (by decide) (by decide) (by decide) (by decide) (by decide)).1

/-- C10. `Struct.decode` rejects with the single object `invalid_type`
error exactly when the input is `null` or its runtime `typeof` is not
`"object"`.  An array input (whose `typeof` is `"object"`) is therefore
decoded as an object through the normal field loop, and a declared field
absent from the array yields a `required` error rather than a whole-input
`invalid_type` error. -/
theorem spec_c10 (fs : SFields) (v : JsVal) :
    ((v = .null ∨ jsTypeof v ≠ "object") ↔
      decode (.struct fs) v = .left [structTypeErr v]) ∧
    (∀ xs : JsList, decode (.struct fs) (.arr xs) =
      (if (decodeFields fs (.arr xs)).2.length > 0 then
        .left (decodeFields fs (.arr xs)).2
      else .right (.obj (decodeFields fs (.arr xs)).1))) ∧
    (∀ (xs : JsList) (k : String) (s : Schema), (k, s) ∈ fieldsList fs →
      getField (.arr xs) k = .undef →
      requiredErr k ∈ (decodeFields fs (.arr xs)).2) := by
  refine ⟨⟨?_, ?_⟩, ?_, ?_⟩
  · intro h
    rw [decode_struct_eq, if_neg]
    rcases h with h | h
    · exact fun hc => hc.2 h
    · exact fun hc => h hc.1
  · intro hdec
    by_contra hcon
    push_neg at hcon
    rw [decode_struct_eq, if_pos ⟨hcon.2, hcon.1⟩] at hdec
    by_cases hl : (decodeFields fs v).2.length > 0
    · rw [if_pos hl] at hdec
      injection hdec with hdec
      have hmem : structTypeErr v ∈ (decodeFields fs v).2 := by
        rw [hdec]; simp
      rw [decodeFields_snd] at hmem
      obtain ⟨k, ps, hp, _⟩ := structErrors_path fs v _ hmem
      simp [structTypeErr] at hp
    · rw [if_neg hl] at hdec
      exact absurd hdec (by simp)
  · intro xs
    rw [decode_struct_eq, if_pos ⟨rfl, by simp⟩]
  · intro xs k s hmem hmiss
    rw [decodeFields_snd]
    unfold structErrors
    rw [List.mem_flatMap]
    exact ⟨(k, s), hmem, by simp [fieldErrs, hmiss]⟩

/-- Witness for C10: a number input is rejected with the single
`invalid_type` error, while an array input reaches the field loop and a
field absent from the array yields a `required` error. -/
theorem spec_c10_witness :
    (JsVal.num 7 = .null ∨ jsTypeof (.num 7) ≠ "object") ∧
    decode (.struct (.cons "a" numberSchema .nil)) (.num 7) =
      .left [structTypeErr (.num 7)] ∧
    requiredErr "a" ∈
      (decodeFields (.cons "a" numberSchema .nil)
        (.arr (.cons (.num 5) .nil))).2 ∧
    decode (.struct (.cons "a" numberSchema .nil))
        (.arr (.cons (.num 5) .nil)) = .left [requiredErr "a"] := by
  refine ⟨by decide, ?_, ?_, by decide⟩
  · exact ((spec_c10 (.cons "a" numberSchema .nil) (.num 7)).1).mp
      (by decide)
  · exact (spec_c10 (.cons "a" numberSchema .nil) .null).2.2
      (.cons (.num 5) .nil) "a" numberSchema (by simp [fieldsList])
      (by decide)

/-- Unfolding lemma for `make` on a primitive schema. -/
theorem make_prim_eq (guard : JsVal → Bool) (typeName : String)
    (v : JsVal) : make (.prim guard typeName) v =
    (if guard v then .ok v
     else .error ("Validation failed: Expected " ++ typeName ++
       ", received " ++ jsTypeof v)) := rfl

/-- Unfolding lemma for `make` on a literal schema. -/
theorem make_lit_eq (l v : JsVal) : make (.lit l) v =
    (if v = l then .ok l
     else .error ("Validation failed: Expected " ++ jsonStringify l ++
       ", received " ++ jsonStringify v)) := rfl

/-- Equality of `Except` results is decidable. -/
instance {A B : Type} [DecidableEq A] [DecidableEq B] :
    DecidableEq (Except A B) := fun x y =>
  match x, y with
  | .ok a, .ok b =>
      if h : a = b then .isTrue (by rw [h]) else .isFalse (by simp [h])
  | .ok _, .error _ => .isFalse (by simp)
  | .error _, .ok _ => .isFalse (by simp)
  | .error a, .error b =>
      if h : a = b then .isTrue (by rw [h]) else .isFalse (by simp [h])

/-- Unfolding lemma for `make` on a struct schema. -/
theorem make_struct_eq (fs : SFields) (v : JsVal) : make (.struct fs) v =
    (match decode (.struct fs) v with
     | .right r => .ok r
     | .left es =>
         .error ("Validation failed: " ++
           String.intercalate ", " (es.map fmtPathMsg))) := rfl

/-- Unfolding lemma for `make` on a list schema. -/
theorem make_list_eq (s : Schema) (v : JsVal) : make (.list s) v =
    (match decode (.list s) v with
     | .right r => .ok r
     | .left es =>
         .error ("Validation failed: " ++
           String.intercalate ", " (es.map fmtPathMsg))) := rfl

/-- Unfolding lemma for `make` on a transform schema. -/
theorem make_transform_eq (base : Schema)
    (fwd bwd : JsVal → Except String JsVal) (v : JsVal) :
    make (.transform base fwd bwd) v =
    (match decode (.transform base fwd bwd) v with
     | .right r => .ok r
     | .left es =>
         .error ("Validation failed: " ++
           String.intercalate ", " (es.map (fun e => e.message)))) := rfl

/-- C3 (amended).  For every schema, `make` returns the decoded value
directly on success.  On failure it throws a `Validation failed: `
prefixed, comma-joined rendering of the errors — but the dot-joined path
prefix (`path: message`) is produced only by the `Struct`, `List`,
`Primitive` and `Literal` constructors (for the latter two the path is
empty, leaving just the message); `transform.make` joins only the error
messages and drops the paths. -/
theorem spec_c3_amended (s : Schema) (v : JsVal) :
    (∀ r, decode s v = .right r → make s v = .ok r) ∧
    (∀ es, decode s v = .left es → make s v =
      .error ("Validation failed: " ++ String.intercalate ", "
        (if isTransformS s then es.map (fun e => e.message)
         else es.map fmtPathMsg))) := by
  constructor
  · intro r hd
    cases s with
    | prim guard typeName =>
        rw [decode_prim_eq] at hd
        by_cases hg : guard v
        · rw [if_pos hg] at hd
          injection hd with hd
          subst hd
          rw [make_prim_eq, if_pos hg]
        · rw [if_neg hg] at hd; exact absurd hd (by simp)
    | lit l =>
        rw [decode_lit_eq] at hd
        by_cases hg : v = l
        · rw [if_pos hg] at hd
          injection hd with hd
          subst hd
          rw [make_lit_eq, if_pos hg]
        · rw [if_neg hg] at hd; exact absurd hd (by simp)
    | struct fs => rw [make_struct_eq, hd]
    | list si => rw [make_list_eq, hd]
    | transform base fwd bwd => rw [make_transform_eq, hd]
  · intro es hd
    cases s with
    | prim guard typeName =>
        rw [decode_prim_eq] at hd
        by_cases hg : guard v
        · rw [if_pos hg] at hd; exact absurd hd (by simp)
        · rw [if_neg hg] at hd
          injection hd with hd
          subst hd
          rw [make_prim_eq, if_neg hg]
          congr 1
    | lit l =>
        rw [decode_lit_eq] at hd
        by_cases hg : v = l
        · rw [if_pos hg] at hd; exact absurd hd (by simp)
        · rw [if_neg hg] at hd
          injection hd with hd
          subst hd
          rw [make_lit_eq, if_neg hg]
          congr 1
    | struct fs =>
        rw [make_struct_eq, hd]
        rfl
    | list si =>
        rw [make_list_eq, hd]
        rfl
    | transform base fwd bwd =>
        rw [make_transform_eq, hd]
        rfl

/-- The transform schema used to refute C3 as stated: an identity
transform over `Struct({a: Number})`. -/
def tIdNum : Schema :=
  .transform (.struct (.cons "a" numberSchema .nil))
    (fun u => .ok u) (fun u => .ok u)

/-- Counterexample to C3 as stated: decoding `{}` against the identity
transform over `Struct({a: Number})` fails with one error at path
`["a"]`, but `make` throws only the bare message — not the dot-joined
path-plus-message rendering the claim asserts for every constructor. -/
theorem spec_c3_counterexample :
    decode tIdNum (.obj .nil) = .left [requiredErr "a"] ∧
    make tIdNum (.obj .nil) =
      .error "Validation failed: Required field a is missing" ∧
    make tIdNum (.obj .nil) ≠
      .error ("Validation failed: " ++
        String.intercalate ", " ([requiredErr "a"].map fmtPathMsg)) := by
  refine ⟨by decide, by decide, ?_⟩
  intro h
  have : ("Validation failed: Required field a is missing" : String) =
      "Validation failed: " ++
        String.intercalate ", " ([requiredErr "a"].map fmtPathMsg) := by
    have h2 : make tIdNum (.obj .nil) =
        .error "Validation failed: Required field a is missing" := by decide
    rw [h2] at h
    injection h
  exact absurd this (by decide)

/-- Witness for the amended C3 at the spec's `make` example: the struct
`Struct({a: Struct({b: Number})})` applied to `{a:{}}` throws the
path-qualified message containing `a.b`. -/
theorem spec_c3_witness :
    decode (.struct (.cons "a" (.struct (.cons "b" numberSchema .nil))
        .nil)) (.obj (.cons "a" (.obj .nil) .nil)) =
      .left [prependPath "a" (requiredErr "b")] ∧
    make (.struct (.cons "a" (.struct (.cons "b" numberSchema .nil))
        .nil)) (.obj (.cons "a" (.obj .nil) .nil)) =
      .error ("Validation failed: " ++ String.intercalate ", "
        (if isTransformS (.struct (.cons "a"
            (.struct (.cons "b" numberSchema .nil)) .nil)) then
          ([prependPath "a" (requiredErr "b")]).map (fun e => e.message)
         else ([prependPath "a" (requiredErr "b")]).map fmtPathMsg)) ∧
    make (.struct (.cons "a" (.struct (.cons "b" numberSchema .nil))
        .nil)) (.obj (.cons "a" (.obj .nil) .nil)) =
      .error "Validation failed: a.b: Required field b is missing" := by
  refine ⟨by decide, ?_, by decide⟩
  exact (spec_c3_amended (.struct (.cons "a"
      (.struct (.cons "b" numberSchema .nil)) .nil))
      (.obj (.cons "a" (.obj .nil) .nil))).2
    [prependPath "a" (requiredErr "b")] (by decide)

/-- Counterexample to C8 as stated: the `Some` constructor performs no
construction-time normalization — applied to `null` it produces a
`Present` wrapping `null`, not `Absent`.  (In the source the exclusion
of `null`/`undefined` is only the static TypeScript parameter type
`Exclude<A, null | undefined>`, which is erased at runtime.) -/
theorem spec_c8_counterexample :
    Opt.Some .null = { tag := "Some", value := .null } ∧
    Opt.Some .null ≠ Opt.None ∧
    (Opt.Some .null).value = .null := by
  exact ⟨rfl, by decide, rfl⟩

/-- C8 (amended).  The `Present` constructor stores its argument
unchanged (no runtime normalization; null-exclusion is static typing
only), while the runtime normalization lives in `fromNullable` — which
maps `null` and `undefined` to `Absent` and everything else to
`Present` — and in `map`, which collapses a `null`/`undefined` result of
the mapped function to `Absent`. -/
theorem spec_c8_amended (v : JsVal) (f : JsVal → JsVal) :
    Opt.fromNullable .null = Opt.None ∧
    Opt.fromNullable .undef = Opt.None ∧
    (v ≠ .null → v ≠ .undef → Opt.fromNullable v = Opt.Some v) ∧
    Opt.Some v = { tag := "Some", value := v } ∧
    Opt.map f (Opt.Some v) =
      (if f v = .null ∨ f v = .undef then Opt.None
       else Opt.Some (f v)) := by
  refine ⟨by decide, by decide, ?_, rfl, ?_⟩
  · intro h1 h2
    unfold Opt.fromNullable
    rw [if_neg]
    rintro (h | h)
    · exact h1 h
    · exact h2 h
  · unfold Opt.map Opt.bimap
    rw [if_neg]
    · rfl
    · intro h
      simp [Opt.isNone, Opt.Some] at h

/-- Witness for the amended C8: `fromNullable("x")` is `Present("x")`
and mapping it through a function returning `null` collapses to
`Absent`. -/
theorem spec_c8_witness :
    (JsVal.str "x" ≠ .null ∧ JsVal.str "x" ≠ .undef) ∧
    Opt.fromNullable (.str "x") = Opt.Some (.str "x") ∧
    Opt.map (fun _ => .null) (Opt.Some (.str "x")) = Opt.None := by
  have h := spec_c8_amended (.str "x") (fun _ => .null)
  refine ⟨⟨by decide, by decide⟩, h.2.2.1 (by decide) (by decide), ?_⟩
  rw [h.2.2.2.2]
  decide

/-- C6.  An operation wrapped with `from` and then forked yields
`Right` of the value on normal completion and `Left` of the thrown value
on a throw/rejection; the resulting promise itself never rejects — the
wrapper is the error boundary. -/
theorem spec_c6 {Err E R : Type} (f : TaskE.AsyncOp Err E R) (rt : E) :
    (∀ t v, f rt = (t, .ok v) →
      TaskE.fork rt (TaskE.fromOp f) = (t, .ok (.right v))) ∧
    (∀ t e, f rt = (t, .error e) →
      TaskE.fork rt (TaskE.fromOp f) = (t, .ok (.left e))) ∧
    (∀ e, (TaskE.fork rt (TaskE.fromOp f)).2 ≠ .error e) := by
  refine ⟨?_, ?_, ?_⟩
  · intro t v h
    simp [TaskE.fork, TaskE.fromOp, h]
  · intro t e h
    simp [TaskE.fork, TaskE.fromOp, h]
  · intro e
    unfold TaskE.fork TaskE.fromOp
    cases hf : f rt with
    | mk t r => cases r <;> simp

/-- Witness for C6: forking a wrapped operation that resolves yields
`Ok`, and forking one that throws yields `Err`, never a rejection. -/
theorem spec_c6_witness :
    TaskE.fork () (TaskE.fromOp
      (fun _ : Unit => ((["op"], Except.ok 42) :
        TaskE.Trace × Except String Nat))) =
      (["op"], .ok (.right 42)) ∧
    TaskE.fork () (TaskE.fromOp
      (fun _ : Unit => ((["op"], Except.error "boom") :
        TaskE.Trace × Except String Nat))) =
      (["op"], .ok (.left "boom")) :=
  ⟨(spec_c6 (fun _ : Unit => ((["op"], Except.ok 42) :
      TaskE.Trace × Except String Nat)) ()).1 ["op"] 42 rfl,
   (spec_c6 (fun _ : Unit => ((["op"], Except.error "boom") :
      TaskE.Trace × Except String Nat)) ()).2.1 ["op"] "boom" rfl⟩

/-- C7.  For `chain`-composed effects: when the first effect's result is
a failure, the function producing the second effect is never invoked
(the composition is independent of it) and the failure — trace included
— is returned unchanged; when the first succeeds, the success value is
threaded into the second and every event of the second effect comes
after every event of the first (the composed trace is the first's trace
followed by the second's). -/
theorem spec_c7 {Err E L R B : Type}
    (m : TaskE.ReaderTaskEither Err E L R)
    (f : R → TaskE.ReaderTaskEither Err E L B) (rt : E) :
    (∀ t l, m rt = (t, .ok (.left l)) →
      ∀ g : R → TaskE.ReaderTaskEither Err E L B,
        TaskE.flatMap g m rt = (t, .ok (.left l))) ∧
    (∀ t v, m rt = (t, .ok (.right v)) →
      TaskE.flatMap f m rt = (t ++ (f v rt).1, (f v rt).2)) := by
  constructor
  · intro t l h g
    simp [TaskE.flatMap, h]
  · intro t v h
    simp [TaskE.flatMap, h]

/-- Witness for C7: with a failing first effect the composition returns
the failure unchanged (for an arbitrary second stage); with a succeeding
first effect the second stage's event follows the first's and receives
the success value. -/
theorem spec_c7_witness :
    TaskE.flatMap
      (fun (v : Nat) (_ : Unit) => (((["second"], .ok (.right (v + 1)))) :
        TaskE.Trace × Except String (Either String Nat)))
      (fun _ : Unit => ((["first"], .ok (.left "err")) :
        TaskE.Trace × Except String (Either String Nat))) () =
      (["first"], .ok (.left "err")) ∧
    TaskE.flatMap
      (fun (v : Nat) (_ : Unit) => (((["second"], .ok (.right (v + 1)))) :
        TaskE.Trace × Except String (Either String Nat)))
      (fun _ : Unit => ((["first"], .ok (.right 10)) :
        TaskE.Trace × Except String (Either String Nat))) () =
      (["first", "second"], .ok (.right 11)) := by
  constructor
  · exact (spec_c7 (fun _ : Unit => ((["first"], .ok (.left "err")) :
      TaskE.Trace × Except String (Either String Nat)))
      (fun (v : Nat) (_ : Unit) => (["second"], .ok (.right (v + 1)))) ()).1
      ["first"] "err" rfl _
  · exact ((spec_c7 (fun _ : Unit => ((["first"], .ok (.right 10)) :
      TaskE.Trace × Except String (Either String Nat)))
      (fun (v : Nat) (_ : Unit) => (["second"], .ok (.right (v + 1)))) ()).2
      ["first"] 10 rfl).trans rfl

/-- C9.  If the underlying effect succeeds with `r` and the function
given to `map` throws at `r`, the exception is not routed to the failure
channel: the mapped effect's promise rejects with it.  By contrast, a
throw inside an operation wrapped by `from` is caught and becomes a
`Left`. -/
theorem spec_c9 {Err E L R B : Type}
    (m : TaskE.ReaderTaskEither Err E L R) (f : R → Except Err B)
    (rt : E) :
    (∀ t r e, m rt = (t, .ok (.right r)) → f r = .error e →
      TaskE.map f m rt = (t, .error e)) ∧
    (∀ (g : TaskE.AsyncOp Err E R) t e, g rt = (t, .error e) →
      TaskE.fromOp g rt = (t, .ok (.left e))) := by
  constructor
  · intro t r e hm hf
    simp [TaskE.map, hm, hf]
  · intro g t e hg
    simp [TaskE.fromOp, hg]

/-- Witness for C9: mapping a throwing function over a succeeding effect
rejects the promise, while wrapping the same throw with `from` produces
a `Left`. -/
theorem spec_c9_witness :
    TaskE.map (fun _ : Nat => (Except.error "boom" : Except String Nat))
      (fun _ : Unit => (([], .ok (.right 5)) :
        TaskE.Trace × Except String (Either String Nat))) () =
      ([], .error "boom") ∧
    TaskE.fromOp (fun _ : Unit => (([], Except.error "boom") :
      TaskE.Trace × Except String Nat)) () = ([], .ok (.left "boom")) := by
  constructor
  · exact (spec_c9 (fun _ : Unit => (([], .ok (.right 5)) :
      TaskE.Trace × Except String (Either String Nat)))
      (fun _ : Nat => (Except.error "boom" : Except String Nat)) ()).1
      [] 5 "boom" rfl rfl
  · exact (spec_c9 (fun _ : Unit => (([], .ok (.right 5)) :
      TaskE.Trace × Except String (Either String Nat)))
      (fun _ : Nat => (Except.error "boom" : Except String Nat)) ()).2
      (fun _ : Unit => ([], Except.error "boom")) [] "boom" rfl

/-- Unfolding lemma for `decode` on a list schema, all input shapes. -/
theorem decode_list_eq (s : Schema) (v : JsVal) : decode (.list s) v =
    (match v with
     | .arr xs =>
         if (decodeList (fun u => decode s u) xs 0).2.length > 0 then
           .left (decodeList (fun u => decode s u) xs 0).2
         else .right (.arr (decodeList (fun u => decode s u) xs 0).1)
     | w => .left [listTypeErr w]) := rfl

/-- Unfolding lemma for `encode` on a struct schema. -/
theorem encode_struct_eq (fs : SFields) (v : JsVal) :
    encode (.struct fs) v =
    (match encodeFields fs v with
     | .ok res => .ok (.obj res)
     | .error m => .error m) := rfl

/-- Unfolding lemma for `encode` on a list schema, all value shapes. -/
theorem encode_list_eq (s : Schema) (v : JsVal) : encode (.list s) v =
    (match v with
     | .arr xs =>
         (match encodeList (fun u => encode s u) xs with
          | .ok ys => .ok (.arr ys)
          | .error m => .error m)
     | _ => .error "TypeError: value.map is not a function") := rfl

/-- Unfolding lemma for the struct encode key loop on a cons cell. -/
theorem encodeFields_cons_eq (k : String) (s : Schema) (rest : SFields)
    (v : JsVal) : encodeFields (.cons k s rest) v =
    (if hasOwn v k ∧ getField v k ≠ .undef then
      (match encode s (getField v k) with
       | .ok e =>
           (match encodeFields rest v with
            | .ok r => .ok (.cons k e r)
            | .error m => .error m)
       | .error m => .error m)
    else encodeFields rest v) := rfl

/-- Unfolding lemma for the list encode loop on a cons cell. -/
theorem encodeList_cons_eq (e : JsVal → Except String JsVal) (x : JsVal)
    (xs : JsList) : encodeList e (.cons x xs) =
    (match e x with
     | .ok y =>
         (match encodeList e xs with
          | .ok ys => .ok (.cons y ys)
          | .error m => .error m)
     | .error m => .error m) := rfl

mutual
/-- Whether a schema is built only from the `Struct`, `List` and
primitive constructors (no `Literal`, no `transform`) — the class of
schemas the round-trip claim quantifies over. -/
def plainS : Schema → Bool
  | .prim _ _ => true
  | .lit _ => false
  | .struct fs => plainF fs
  | .list s => plainS s
  | .transform _ _ _ => false

def plainF : SFields → Bool
  | .nil => true
  | .cons _ s rest => plainS s && plainF rest
end

/-- Whether the declared field names of one struct level are pairwise
distinct (always true of a JavaScript `validators` object literal, whose
keys cannot repeat; the embedding's field list could otherwise repeat a
key). -/
def keysNodup : SFields → Bool
  | .nil => true
  | .cons k _ rest => !(keysOf rest).contains k && keysNodup rest

mutual
/-- Whether every struct level in the schema has pairwise distinct
declared keys. -/
def keysDistinctS : Schema → Bool
  | .prim _ _ => true
  | .lit _ => true
  | .struct fs => keysNodup fs && keysDistinctF fs
  | .list s => keysDistinctS s
  | .transform base _ _ => keysDistinctS base

def keysDistinctF : SFields → Bool
  | .nil => true
  | .cons _ s rest => keysDistinctS s && keysDistinctF rest
end

def jlMap (f : JsVal → JsVal) : JsList → JsList
  | .nil => .nil
  | .cons x xs => .cons (f x) (jlMap f xs)

mutual
/-- The claim's notion of "the input restricted to the declared fields":
structs keep exactly the declared keys (recursively restricted), arrays
restrict every element, primitives keep the value. -/
def restrict : Schema → JsVal → JsVal
  | .prim _ _, v => v
  | .lit _, v => v
  | .struct fs, v => .obj (restrictFields fs v)
  | .list s, v =>
      match v with
      | .arr xs => .arr (jlMap (fun u => restrict s u) xs)
      | w => w
  | .transform _ _ _, v => v

def restrictFields : SFields → JsVal → JsFields
  | .nil, _ => .nil
  | .cons k s rest, v =>
      .cons k (restrict s (getField v k)) (restrictFields rest v)
end

/-- A successfully decoded value of a plain schema is never `undefined`
when the input was not `undefined` (primitives return the input itself,
structs return objects, lists return arrays). -/
theorem decode_plain_not_undef (s : Schema) (v r : JsVal)
    (hp : plainS s = true) (hv : v ≠ .undef)
    (hd : decode s v = .right r) : r ≠ .undef := by
  cases s with
  | prim guard typeName =>
      rw [decode_prim_eq] at hd
      by_cases hg : guard v
      · rw [if_pos hg] at hd
        injection hd with hd
        subst hd
        exact hv
      · rw [if_neg hg] at hd; exact absurd hd (by simp)
  | lit l => simp [plainS] at hp
  | struct fs =>
      rw [decode_struct_eq] at hd
      by_cases ho : jsTypeof v = "object" ∧ v ≠ .null
      · rw [if_pos ho] at hd
        by_cases hl : (decodeFields fs v).2.length > 0
        · rw [if_pos hl] at hd; exact absurd hd (by simp)
        · rw [if_neg hl] at hd
          injection hd with hd
          subst hd
          simp
      · rw [if_neg ho] at hd; exact absurd hd (by simp)
  | list si =>
      rw [decode_list_eq] at hd
      cases v with
      | arr xs =>
          dsimp only at hd
          by_cases hl :
            (decodeList (fun u => decode si u) xs 0).2.length > 0
          · rw [if_pos hl] at hd; exact absurd hd (by simp)
          · rw [if_neg hl] at hd
            injection hd with hd
            subst hd
            simp
      | str a => exact absurd hd (by simp)
      | num a => exact absurd hd (by simp)
      | bool a => exact absurd hd (by simp)
      | null => exact absurd hd (by simp)
      | undef => exact absurd hd (by simp)
      | obj fs => exact absurd hd (by simp)
  | transform base fwd bwd => simp [plainS] at hp

/-- The struct encode key loop reads the value only at the declared
keys. -/
theorem encodeFields_congr : ∀ (fs : SFields) (w w' : JsVal),
    (∀ k, k ∈ keysOf fs →
      hasOwn w k = hasOwn w' k ∧ getField w k = getField w' k) →
    encodeFields fs w = encodeFields fs w'
  | .nil, _, _, _ => rfl
  | .cons k s rest, w, w', hagree => by
      have hk := hagree k (by simp [keysOf, fieldsList])
      have ih := encodeFields_congr rest w w'
        (fun k' hk' => hagree k'
          (by simp only [keysOf, fieldsList, List.map_cons,
                List.mem_cons] at hk' ⊢
              exact Or.inr hk'))
      rw [encodeFields_cons_eq, encodeFields_cons_eq, hk.1, hk.2, ih]

/-- Round-trip for the list element loop: if every element decoded
successfully, encoding the decoded elements (given the round-trip
property of the item schema) reproduces the restricted input elements. -/
theorem roundtripList (s : Schema)
    (IH : ∀ v r, decode s v = .right r → encode s r = .ok (restrict s v)) :
    ∀ (xs rs : JsList) (i : Nat),
    decodeList (fun u => decode s u) xs i = (rs, []) →
    encodeList (fun u => encode s u) rs =
      .ok (jlMap (fun u => restrict s u) xs)
  | .nil, rs, i, h => by
      injection h with h1 h2
      subst h1
      rfl
  | .cons x xs, rs, i, h => by
      rw [decodeList_cons_eq] at h
      cases hx : decode s x with
      | left es =>
          rw [hx] at h
          dsimp only at h
          injection h with h1 h2
          rw [List.append_eq_nil] at h2
          exact absurd (List.map_eq_nil_iff.mp h2.1)
            (decode_left_ne_nil s x es hx)
      | right r0 =>
          rw [hx] at h
          dsimp only at h
          injection h with h1 h2
          subst h1
          rw [encodeList_cons_eq]
          rw [IH x r0 hx]
          rw [roundtripList s IH xs
            (decodeList (fun u => decode s u) xs (i + 1)).1 (i + 1)
            (by rw [← h2])]
          rfl

mutual
/-- Round-trip of a plain (`Struct`/`List`/primitive) schema: encoding a
successfully decoded value reproduces the input restricted to the
declared fields. -/
theorem roundtripS : ∀ (s : Schema) (v r : JsVal), plainS s = true →
    keysDistinctS s = true → decode s v = .right r →
    encode s r = .ok (restrict s v)
  | .prim guard typeName, v, r, hp, hk, hd => by
      rw [decode_prim_eq] at hd
      by_cases hg : guard v
      · rw [if_pos hg] at hd
        injection hd with hd
        subst hd
        rfl
      · rw [if_neg hg] at hd; exact absurd hd (by simp)
  | .lit l, v, r, hp, _, _ => by simp [plainS] at hp
  | .transform base fwd bwd, v, r, hp, _, _ => by simp [plainS] at hp
  | .struct fs, v, r, hp, hk, hd => by
      rw [decode_struct_eq] at hd
      by_cases ho : jsTypeof v = "object" ∧ v ≠ .null
      · rw [if_pos ho] at hd
        by_cases hl : (decodeFields fs v).2.length > 0
        · rw [if_pos hl] at hd; exact absurd hd (by simp)
        · rw [if_neg hl] at hd
          injection hd with hd
          subst hd
          have hsnd : (decodeFields fs v).2 = [] := by simpa using hl
          have hplain : plainF fs = true := by simpa [plainS] using hp
          have hkn : keysNodup fs = true ∧ keysDistinctF fs = true := by
            simpa [keysDistinctS, Bool.and_eq_true] using hk
          have hrf := roundtripF fs v (decodeFields fs v).1 hplain hkn
            (by rw [← hsnd])
          rw [encode_struct_eq, hrf]
          rfl
      · rw [if_neg ho] at hd; exact absurd hd (by simp)
  | .list s, v, r, hp, hk, hd => by
      rw [decode_list_eq] at hd
      cases v with
      | arr xs =>
          dsimp only at hd
          by_cases hl :
            (decodeList (fun u => decode s u) xs 0).2.length > 0
          · rw [if_pos hl] at hd; exact absurd hd (by simp)
          · rw [if_neg hl] at hd
            injection hd with hd
            subst hd
            have hsnd : (decodeList (fun u => decode s u) xs 0).2 = [] :=
              by simpa using hl
            have hplain : plainS s = true := by simpa [plainS] using hp
            have hks : keysDistinctS s = true := by
              simpa [keysDistinctS] using hk
            have hlst := roundtripList s
              (fun v' r' hd' => roundtripS s v' r' hplain hks hd')
              xs (decodeList (fun u => decode s u) xs 0).1 0
              (by rw [← hsnd])
            rw [encode_list_eq]
            dsimp only
            rw [hlst]
            rfl
      | str a => exact absurd hd (by simp)
      | num a => exact absurd hd (by simp)
      | bool a => exact absurd hd (by simp)
      | null => exact absurd hd (by simp)
      | undef => exact absurd hd (by simp)
      | obj ofs => exact absurd hd (by simp)

/-- Round-trip of the struct field loop: on a fully successful decode,
encoding the decoded object over the same declared fields reproduces
every declared field's restricted input value. -/
theorem roundtripF : ∀ (fs : SFields) (v : JsVal) (res : JsFields),
    plainF fs = true → keysNodup fs = true ∧ keysDistinctF fs = true →
    decodeFields fs v = (res, []) →
    encodeFields fs (.obj res) = .ok (restrictFields fs v)
  | .nil, v, res, _, _, h => by
      injection h with h1 h2
      subst h1
      rfl
  | .cons k s rest, v, res, hp, hkd, h => by
      rw [decodeFields_cons_eq] at h
      have hps : plainS s = true ∧ plainF rest = true := by
        simpa [plainF, Bool.and_eq_true] using hp
      obtain ⟨hkn, hkf⟩ := hkd
      have hnc : ¬k ∈ keysOf rest ∧ keysNodup rest = true := by
        simpa [keysNodup, Bool.and_eq_true] using hkn
      have hkds : keysDistinctS s = true ∧ keysDistinctF rest = true := by
        simpa [keysDistinctF, Bool.and_eq_true] using hkf
      by_cases hm : getField v k = .undef
      · rw [if_pos hm] at h
        injection h with h1 h2
        exact absurd h2 (by simp)
      · rw [if_neg hm] at h
        cases hx : decode s (getField v k) with
        | left es =>
            rw [hx] at h
            dsimp only at h
            injection h with h1 h2
            rw [List.append_eq_nil] at h2
            exact absurd (List.map_eq_nil_iff.mp h2.1)
              (decode_left_ne_nil s (getField v k) es hx)
        | right r0 =>
            rw [hx] at h
            dsimp only at h
            injection h with h1 h2
            subst h1
            rw [encodeFields_cons_eq]
            have hr0 : r0 ≠ .undef :=
              decode_plain_not_undef s (getField v k) r0 hps.1 hm hx
            have hget : getField
                (.obj (.cons k r0 (decodeFields rest v).1)) k = r0 := by
              simp [getField, jfGet]
            have hcond : hasOwn
                (.obj (.cons k r0 (decodeFields rest v).1)) k = true ∧
                getField (.obj (.cons k r0 (decodeFields rest v).1)) k ≠
                  .undef := by
              refine ⟨by simp [hasOwn, jfHas], ?_⟩
              rw [hget]
              exact hr0
            rw [if_pos hcond, hget,
              roundtripS s (getField v k) r0 hps.1 hkds.1 hx]
            dsimp only
            have hagree : ∀ k', k' ∈ keysOf rest →
                hasOwn (.obj (.cons k r0 (decodeFields rest v).1)) k' =
                  hasOwn (.obj (decodeFields rest v).1) k' ∧
                getField (.obj (.cons k r0 (decodeFields rest v).1)) k' =
                  getField (.obj (decodeFields rest v).1) k' := by
              intro k' hk'
              have hne : k' ≠ k := fun he => hnc.1 (he ▸ hk')
              exact ⟨by simp [hasOwn, jfHas, hne],
                by simp [getField, jfGet, hne]⟩
            rw [encodeFields_congr rest _ _ hagree,
              roundtripF rest v (decodeFields rest v).1 hps.2
                ⟨hnc.2, hkds.2⟩ (by rw [← h2])]
            rfl
end

/-- C4.  For every schema built only from `Struct`, `List` and primitive
constructors (no `transform`, no `Literal`), with pairwise distinct
declared keys at every struct level (automatic for a JavaScript
`validators` object, whose keys cannot repeat), encoding a successfully
decoded value yields the input restricted to the declared fields. -/
theorem spec_c4 (s : Schema) (v r : JsVal) (hplain : plainS s = true)
    (hkeys : keysDistinctS s = true) (hd : decode s v = .right r) :
    encode s r = .ok (restrict s v) :=
  roundtripS s v r hplain hkeys hd

/-- Witness for C4: a struct of a string field and a list-of-numbers
field, decoded from an input carrying an extra key `z`, encodes back to
the input with `z` dropped. -/
theorem spec_c4_witness :
    (plainS (.struct (.cons "a" stringSchema
        (.cons "tags" (.list numberSchema) .nil))) = true ∧
      keysDistinctS (.struct (.cons "a" stringSchema
        (.cons "tags" (.list numberSchema) .nil))) = true ∧
      decode (.struct (.cons "a" stringSchema
          (.cons "tags" (.list numberSchema) .nil)))
        (.obj (.cons "a" (.str "x") (.cons "tags"
          (.arr (.cons (.num 1) (.cons (.num 2) .nil)))
          (.cons "z" (.bool true) .nil)))) =
        .right (.obj (.cons "a" (.str "x") (.cons "tags"
          (.arr (.cons (.num 1) (.cons (.num 2) .nil))) .nil)))) ∧
    encode (.struct (.cons "a" stringSchema
        (.cons "tags" (.list numberSchema) .nil)))
      (.obj (.cons "a" (.str "x") (.cons "tags"
        (.arr (.cons (.num 1) (.cons (.num 2) .nil))) .nil))) =
      .ok (restrict (.struct (.cons "a" stringSchema
          (.cons "tags" (.list numberSchema) .nil)))
        (.obj (.cons "a" (.str "x") (.cons "tags"
          (.arr (.cons (.num 1) (.cons (.num 2) .nil)))
          (.cons "z" (.bool true) .nil))))) ∧
    restrict (.struct (.cons "a" stringSchema
        (.cons "tags" (.list numberSchema) .nil)))
      (.obj (.cons "a" (.str "x") (.cons "tags"
        (.arr (.cons (.num 1) (.cons (.num 2) .nil)))
        (.cons "z" (.bool true) .nil)))) =
      .obj (.cons "a" (.str "x") (.cons "tags"
        (.arr (.cons (.num 1) (.cons (.num 2) .nil))) .nil)) := by
  refine ⟨⟨by decide, by decide, by decide⟩, ?_, by decide⟩
  exact spec_c4 _ _ _ (by decide) (by decide) (by decide)
